import Mathlib

/-!
Verification of the persistent, fixed-depth, content-addressed Merkle tree of
`src/trees/merkle-tree/interview-exam-2/src/merkle_tree.ts` (class `MerkleTree`),
with the variant in `src/unnamed/part_000` consulted where the two differ.

Modelling conventions (shallow embedding):
* Hash values (32-byte `Buffer`s produced by `Sha256Hasher.hash` / `.compress`)
  are modelled by the free algebra `H`: `hash` and `compress` are injective
  constructors.  This is the standard collision-free idealization of a
  cryptographic hash (the hasher itself lives in `sha256_hasher.ts`, an
  external collaborator per the spec).
* The leveldb store is a partial map from keys to records.  Keys are either a
  32-byte hash (`K.hk`) or a tree name (`K.nk`); a name buffer coinciding with
  a hash buffer would itself be a hash collision, so the two key spaces are
  kept apart.  Record values: `Rec.node l r` is a 64-byte internal record
  `l || r`; `Rec.meta root bytes` is the 40-byte metadata record
  `root || depth-bytes`; `Rec.blob n` stands for an arbitrary record of `n`
  bytes of unstructured content (used only to exercise the corrupt-size
  branches; a well-formed 64-byte record is always a `node`).
* `db.get(key).catch(() => Buffer.alloc(0))` returns a zero-length buffer on a
  missing key, and the code branches on `data.length`; `recSize` gives that
  length for a lookup result.
* JS `number` indices are modelled as `Int`; `Math.floor(index / Math.pow(2,
  layer - 1)) % 2 === 0` is `Int.fdiv index 2^(layer-1) % 2 = 0` (the doubles
  involved are exact for all inputs of interest).  For `layer = 0` JS computes
  `Math.floor(index / 0.5) % 2 = (2 * index) % 2 = 0`, i.e. `true` for every
  integer index, which is how `isLeftNode` is defined at `0`.
* The recursion of `updateElementRecursively` terminates only because a store
  lookup eventually misses; on an adversarial store the TS code could loop
  forever.  The model uses explicit fuel (`depth + 1`, the number of layers
  the descent can visit), `none` standing for non-termination / exhaustion;
  on every state reachable through the API the fuel is never exhausted.
-/

namespace MT

/-- Modelled from the spec: hash values produced by `Sha256Hasher`
(`sha256_hasher.ts` is not under `src/`); §4.1 specifies `hash` and
`compress` as deterministic order-sensitive primitives, idealized here as
free constructors (no collisions).  `zero32` is `Buffer.alloc(32)`, the
initial `this.root` of the constructor. -/
inductive H : Type where
  | zero32 : H
  | base : List Nat → H
  | comp : H → H → H
deriving DecidableEq, Repr

/-- `Sha256Hasher.hash` applied to a byte buffer. -/
def hashB (v : List Nat) : H := H.base v

/-- `Sha256Hasher.compress` of two 32-byte hashes. -/
def compress (a b : H) : H := H.comp a b

/-- The 64-byte zero buffer `Buffer.alloc(LEAF_BYTES)`. -/
def zeros64 : List Nat := List.replicate 64 0

/-- Store keys: a 32-byte hash key or a tree-name key. -/
inductive K : Type where
  | hk : H → K
  | nk : String → K
deriving DecidableEq

/-- Store records (values of the leveldb). -/
inductive Rec : Type where
  | node : H → H → Rec
  | meta : H → List Nat → Rec
  | blob : Nat → Rec
deriving DecidableEq

/-- The byte length of a lookup result; a missing key reads as a zero-length
buffer (`.catch(() => Buffer.alloc(0))`). -/
def recSize : Option Rec → Nat
  | none => 0
  | some (.node _ _) => 64
  | some (.meta _ bs) => 32 + bs.length
  | some (.blob n) => n

/-- The leveldb modelled as a partial map. -/
def Store : Type := K → Option Rec

/-- An empty store. -/
def emptyStore : Store := fun _ => none

/-- `db.put(key, value)`. -/
def putRec (s : Store) (k : K) (r : Rec) : Store :=
  fun k' => if k' = k then some r else s k'

/-- `data.writeUInt32LE(depth, 32)`: the four little-endian bytes of a u32. -/
def u32LE (n : Nat) : List Nat :=
  [n % 256, n / 256 % 256, n / 2 ^ 16 % 256, n / 2 ^ 24 % 256]

/-- `meta.readUInt32LE(32)`: decode the four little-endian bytes at the
offset, ignoring anything after them. -/
def readU32LE : List Nat → Nat
  | a :: b :: c :: d :: _ => a + 256 * b + 2 ^ 16 * c + 2 ^ 24 * d
  | _ => 0

/-- The bytes following the root in the metadata record: `Buffer.alloc(40)`
leaves 40 bytes, the root occupies 32, `writeUInt32LE(depth, 32)` fills four
more, and the remaining four stay zero. -/
def metaBytes (d : Nat) : List Nat := u32LE d ++ List.replicate 4 0

/-- The in-memory `MerkleTree` instance together with its backing store. -/
structure Tree : Type where
  store : Store
  name : String
  depth : Nat
  root : H

/-- `isLeftNode(index, layer)`:
`Math.floor(index / Math.pow(2, layer - 1)) % 2 === 0`.  At `layer = 0` the JS
expression evaluates to `Math.floor(2 * index) % 2 === 0`, which is `true` for
every integer index. -/
def isLeftNode (index : Int) (layer : Nat) : Bool :=
  match layer with
  | 0 => true
  | l + 1 => Int.fdiv index ((2 : Int) ^ l) % 2 = 0

/-- `writeMetaData()`: persist `root || depth(u32 LE)` (40 bytes) under the
tree's name. -/
def writeMetaData (t : Tree) : Tree :=
  { t with store := putRec t.store (.nk t.name) (.meta t.root (metaBytes t.depth)) }

/-- The loop body of `createEmptyTree`: starting from `defaultNode`, `n` times
compute `parent = compress(d, d)`, `db.put(parent, d || d)`, `d := parent`;
returns the final `defaultNode` and the store. -/
def buildDefaults (s : Store) (d : H) : Nat → H × Store
  | 0 => (d, s)
  | n + 1 =>
      buildDefaults (putRec s (.hk (compress d d)) (.node d d)) (compress d d) n

/-- `createEmptyTree()`: materialize the all-default spine, set the root, and
persist metadata. -/
def createEmptyTree (t : Tree) : Tree :=
  let p := buildDefaults t.store (hashB zeros64) t.depth
  writeMetaData { t with store := p.2, root := p.1 }

/-- `MerkleTree.new(db, name, depth)`: restore from metadata when present
(trusting the stored depth, which the constructor validates), otherwise
validate the caller's depth and initialize an empty tree.  `none` models a
thrown `Error('Bad depth')`. -/
def newTree (s : Store) (name : String) (depth : Nat) : Option Tree :=
  match s (.nk name) with
  | some (.meta root bs) =>
      let d := readU32LE bs
      if 1 ≤ d ∧ d ≤ 32 then some ⟨s, name, d, root⟩ else none
  | _ =>
      if 1 ≤ depth ∧ depth ≤ 32 then
        some (createEmptyTree ⟨s, name, depth, H.zero32⟩)
      else none

/-- `getRoot()`. -/
def getRoot (t : Tree) : H := t.root

/-- The loop of `getHashPath`: the TS loop runs `depth` iterations with the
mutable `layer` starting at `depth` and decremented once per iteration, so the
first argument here is the current `layer` value (and doubles as the iteration
count).  A 64-byte record pushes its pair and descends; any other size is
skipped (`currentNode` and the path are left untouched). -/
def ghpLoop (s : Store) (index : Int) : Nat → H → List (H × H) → List (H × H)
  | 0, _, acc => acc
  | l + 1, cur, acc =>
      match s (.hk cur) with
      | some (.node lt rt) =>
          ghpLoop s index l (if isLeftNode index (l + 1) then lt else rt)
            (acc ++ [(lt, rt)])
      | _ => ghpLoop s index l cur acc

/-- `getHashPath(index)`: collect pairs root-to-leaf, return them reversed
(the `HashPath` wrapper of `hash_path.ts` is just its list of pairs). -/
def getHashPath (t : Tree) (index : Int) : List (H × H) :=
  (ghpLoop t.store index t.depth t.root []).reverse

/-- `updateElementRecursively(parent, index, value, layer)` with explicit
fuel.  `rootArg` is the surrounding instance's `this.root`, returned by the
final fall-through (`return this.root`) when the record size is neither 0 nor
64.  Returns the new subtree hash and the store after the bottom-up puts. -/
def updateRecAux (rootArg : H) (index : Int) (value : List Nat) :
    Nat → Store → H → Nat → Option (H × Store)
  | 0, _, _, _ => none
  | fuel + 1, s, parent, layer =>
      let data := s (.hk parent)
      if recSize data = 0 then some (hashB value, s)
      else
        match data with
        | some (.node lt rt) =>
            if isLeftNode index layer then
              match updateRecAux rootArg index value fuel s lt (layer - 1) with
              | none => none
              | some (ul, s') =>
                  let np := compress ul rt
                  some (np, putRec s' (.hk np) (.node ul rt))
            else
              match updateRecAux rootArg index value fuel s rt (layer - 1) with
              | none => none
              | some (ur, s') =>
                  let np := compress lt ur
                  some (np, putRec s' (.hk np) (.node lt ur))
        | _ => some (rootArg, s)

/-- `updateElement(index, value)`: run the recursive update from the root at
layer `depth`, install the returned hash as the new root, persist metadata. -/
def updateElement (t : Tree) (index : Int) (value : List Nat) : Option Tree :=
  match updateRecAux t.root index value (t.depth + 1) t.store t.root t.depth with
  | none => none
  | some (h', s') => some (writeMetaData { t with root := h', store := s' })

/-- Instrumented variant of `updateRecAux` that refuses (returns `none`) when
the absent-record branch (`data.length === 0`, returning `hash(value)`) is
reached at a layer above 0; identical to `updateRecAux` otherwise. -/
def updateRecStrict (rootArg : H) (index : Int) (value : List Nat) :
    Nat → Store → H → Nat → Option (H × Store)
  | 0, _, _, _ => none
  | fuel + 1, s, parent, layer =>
      let data := s (.hk parent)
      if recSize data = 0 then
        if layer = 0 then some (hashB value, s) else none
      else
        match data with
        | some (.node lt rt) =>
            if isLeftNode index layer then
              match updateRecStrict rootArg index value fuel s lt (layer - 1) with
              | none => none
              | some (ul, s') =>
                  let np := compress ul rt
                  some (np, putRec s' (.hk np) (.node ul rt))
            else
              match updateRecStrict rootArg index value fuel s rt (layer - 1) with
              | none => none
              | some (ur, s') =>
                  let np := compress lt ur
                  some (np, putRec s' (.hk np) (.node lt ur))
        | _ => some (rootArg, s)

/-- The default node at level `j`: `hash(zero-block)` at level 0, then
`compress` of two copies of the level below, as computed by
`createEmptyTree`. -/
def defN : Nat → H
  | 0 => hashB zeros64
  | n + 1 => compress (defN n) (defN n)

/-- Height measure separating the levels of the free hash algebra. -/
def htH : H → Nat
  | .zero32 => 0
  | .base _ => 0
  | .comp l r => max (htH l) (htH r) + 1

/-- Content-addressing invariant of the store: every record sitting at a hash
key is a 64-byte internal record whose key is the compression of its own two
children. -/
def goodStore (s : Store) : Prop :=
  ∀ h r, s (.hk h) = some r → ∃ lt rt, r = Rec.node lt rt ∧ h = compress lt rt

/-- The subtree of height `n` hanging at hash `h` is fully materialized: every
internal level has a 64-byte record and the level-0 entries are bare leaf
hashes (`hash` of some value, hence — under `goodStore` — absent from the
store). -/
def complete (s : Store) : H → Nat → Prop
  | h, 0 => ∃ v, h = hashB v
  | h, n + 1 => ∃ lt rt, s (.hk h) = some (.node lt rt) ∧
      complete s lt n ∧ complete s rt n

/-- Store extension on hash keys: every present node record stays present and
unchanged. -/
def extHK (s s' : Store) : Prop :=
  ∀ h r, s (.hk h) = some r → s' (.hk h) = some r

/-- The leaf hash reached from `h` by descending `n` levels along `index`'s
path. -/
def leafAt (s : Store) (index : Int) : H → Nat → H
  | h, 0 => h
  | h, n + 1 =>
      match s (.hk h) with
      | some (.node lt rt) =>
          leafAt s index (if isLeftNode index (n + 1) then lt else rt) n
      | _ => h

/-- The hash path of `index` in leaf-to-root order, defined structurally:
position `j` of the result is the child pair of the path node at layer
`j + 1`. -/
def pairsLTR (s : Store) (index : Int) : H → Nat → List (H × H)
  | _, 0 => []
  | h, n + 1 =>
      match s (.hk h) with
      | some (.node lt rt) =>
          pairsLTR s index (if isLeftNode index (n + 1) then lt else rt) n
            ++ [(lt, rt)]
      | _ => []

/-- Recompute a root from a starting hash and a leaf-to-root pair list,
choosing the composition order at each layer by `index`'s bit there (the
first list entry is consumed at `layer`, then `layer + 1`, and so on). -/
def recomputeAux (index : Int) : Nat → H → List (H × H) → H
  | _, cur, [] => cur
  | layer, cur, (lt, rt) :: rest =>
      recomputeAux index (layer + 1)
        (if isLeftNode index layer then compress cur rt else compress lt cur)
        rest

/-- Root recomputation from a leaf hash and a leaf-to-root hash path, as in
the update-then-prove property (§8): pair `j` is used at layer `j + 1`. -/
def recomputeRoot (index : Int) (start : H) (ps : List (H × H)) : H :=
  recomputeAux index 1 start ps

/-- Abstract full binary hash tree of the materialized subtree. -/
inductive Htree : Type where
  | lf : H → Htree
  | nd : Htree → Htree → Htree
deriving DecidableEq

/-- Read the abstract tree of height `n` rooted at hash `h` out of the
store. -/
def toTree (s : Store) : H → Nat → Htree
  | h, 0 => .lf h
  | h, n + 1 =>
      match s (.hk h) with
      | some (.node lt rt) => .nd (toTree s lt n) (toTree s rt n)
      | _ => .lf h

/-- Root hash of an abstract tree. -/
def rootOf : Htree → H
  | .lf h => h
  | .nd l r => compress (rootOf l) (rootOf r)

/-- The tree has the full binary shape of height `n`. -/
def Full : Htree → Nat → Prop
  | .lf _, 0 => True
  | .nd l r, n + 1 => Full l n ∧ Full r n
  | _, _ => False

/-- Semantic leaf update on abstract trees, descending by `index`'s bit at
each layer exactly as `updateElementRecursively` does. -/
def updT (index : Int) (value : List Nat) : Htree → Nat → Htree
  | _, 0 => .lf (hashB value)
  | .nd l r, n + 1 =>
      if isLeftNode index (n + 1) then .nd (updT index value l n) r
      else .nd l (updT index value r n)
  | .lf h, _ + 1 => .lf h

/-- The tree states reachable through the public API: freshly initialized
from a store holding no metadata for the name, then mutated by in-range
`updateElement` calls. -/
inductive Reach : Tree → Prop where
  | init : ∀ (name : String) (d : Nat) (t : Tree),
      newTree emptyStore name d = some t → Reach t
  | step : ∀ (t : Tree) (i : Int) (v : List Nat) (t' : Tree),
      Reach t → 0 ≤ i → i < 2 ^ t.depth → updateElement t i v = some t' →
      Reach t'

/-! ### Basic lemmas about the store and the default spine -/

theorem putRec_same (s : Store) (k : K) (r : Rec) : putRec s k r k = some r := by
  simp [putRec]

theorem putRec_other (s : Store) (k k' : K) (r : Rec) (h : k' ≠ k) :
    putRec s k r k' = s k' := by
  simp [putRec, h]

theorem htH_defN : ∀ n, htH (defN n) = n
  | 0 => rfl
  | n + 1 => by simp [defN, compress, htH, htH_defN n]

theorem defN_inj {m n : Nat} (h : defN m = defN n) : m = n := by
  have := congrArg htH h
  rwa [htH_defN, htH_defN] at this

theorem buildDefaults_fst : ∀ (n : Nat) (s : Store) (m : Nat),
    (buildDefaults s (defN m) n).1 = defN (m + n)
  | 0, s, m => rfl
  | n + 1, s, m => by
      show (buildDefaults _ (defN (m + 1)) n).1 = _
      rw [buildDefaults_fst n _ (m + 1)]
      ring_nf

theorem buildDefaults_store : ∀ (n : Nat) (s : Store) (m : Nat),
    (∀ j, m < j → j ≤ m + n → (buildDefaults s (defN m) n).2 (.hk (defN j)) =
        some (.node (defN (j - 1)) (defN (j - 1)))) ∧
    (∀ k, (∀ j, m < j → j ≤ m + n → k ≠ K.hk (defN j)) →
        (buildDefaults s (defN m) n).2 k = s k)
  | 0, s, m => by
      constructor
      · intro j h1 h2; omega
      · intro k _; rfl
  | n + 1, s, m => by
      have step : buildDefaults s (defN m) (n + 1) =
          buildDefaults (putRec s (.hk (defN (m + 1))) (.node (defN m) (defN m)))
            (defN (m + 1)) n := rfl
      have ih := buildDefaults_store n
        (putRec s (.hk (defN (m + 1))) (.node (defN m) (defN m))) (m + 1)
      constructor
      · intro j h1 h2
        rw [step]
        rcases Nat.lt_or_ge (m + 1) j with hj | hj
        · exact ih.1 j hj (by omega)
        · have hjm : j = m + 1 := by omega
          subst hjm
          rw [ih.2 _ (fun j' hj1 hj2 hne => by
            have : (m + 1) = j' := K.hk.inj hne |> defN_inj
            omega)]
          rw [putRec_same]
          simp
      · intro k hk
        rw [step, ih.2 _ (fun j hj1 hj2 => hk j (by omega) (by omega)),
          putRec_other]
        exact hk (m + 1) (by omega) (by omega)

theorem goodStore_empty : goodStore emptyStore := by
  intro h r hr
  simp [emptyStore] at hr

theorem goodStore_putNode {s : Store} (hs : goodStore s) (a b : H) :
    goodStore (putRec s (.hk (compress a b)) (.node a b)) := by
  intro h r hr
  by_cases hkey : (K.hk h) = K.hk (compress a b)
  · rw [hkey, putRec_same] at hr
    exact ⟨a, b, (Option.some.inj hr).symm, K.hk.inj hkey⟩
  · rw [putRec_other _ _ _ _ hkey] at hr
    exact hs h r hr

theorem goodStore_putMeta {s : Store} (hs : goodStore s) (n : String) (r : Rec) :
    goodStore (putRec s (.nk n) r) := by
  intro h rr hr
  rw [putRec_other _ _ _ _ (by simp)] at hr
  exact hs h rr hr

theorem goodStore_buildDefaults : ∀ (n : Nat) (s : Store) (d : H),
    goodStore s → goodStore (buildDefaults s d n).2
  | 0, s, d, hs => hs
  | n + 1, s, d, hs =>
      goodStore_buildDefaults n _ (compress d d) (goodStore_putNode hs d d)

theorem newTree_fresh {s : Store} {name : String} {d : Nat}
    (h0 : s (.nk name) = none) (h1 : 1 ≤ d) (h2 : d ≤ 32) :
    newTree s name d = some ⟨putRec (buildDefaults s (hashB zeros64) d).2
      (.nk name) (.meta (defN d) (metaBytes d)), name, d, defN d⟩ := by
  have hb : (buildDefaults s (hashB zeros64) d).1 = defN d := by
    have := buildDefaults_fst d s 0
    simpa [defN] using this
  unfold newTree
  rw [h0]
  simp only [h1, h2, and_self, if_true]
  unfold createEmptyTree writeMetaData
  simp [hb]

/-! ### Extension and monotonicity lemmas -/

theorem extHK_refl (s : Store) : extHK s s := fun _ _ h => h

theorem extHK_trans {s₁ s₂ s₃ : Store} (h12 : extHK s₁ s₂) (h23 : extHK s₂ s₃) :
    extHK s₁ s₃ := fun h r hr => h23 h r (h12 h r hr)

theorem extHK_putMeta (s : Store) (n : String) (r : Rec) :
    extHK s (putRec s (.nk n) r) := by
  intro h rr hr
  rw [putRec_other _ _ _ _ (by simp)]
  exact hr

theorem extHK_putNode {s : Store} (hs : goodStore s) (a b : H) :
    extHK s (putRec s (.hk (compress a b)) (.node a b)) := by
  intro h rr hr
  by_cases hkey : (K.hk h) = K.hk (compress a b)
  · obtain ⟨lt, rt, hrec, hcomp⟩ := hs h rr hr
    have hh : h = compress a b := K.hk.inj hkey
    rw [hh] at hcomp
    obtain ⟨hl, hr'⟩ : lt = a ∧ rt = b := by
      have := hcomp.symm
      simp [compress] at this
      exact this
    rw [hkey, putRec_same, hrec, hl, hr']
  · rw [putRec_other _ _ _ _ hkey]
    exact hr

theorem complete_mono {s s' : Store} (hext : extHK s s') :
    ∀ {n : Nat} {h : H}, complete s h n → complete s' h n := by
  intro n
  induction n with
  | zero => intro h hc; exact hc
  | succ n ih =>
      intro h hc
      obtain ⟨lt, rt, hrec, hl, hr⟩ := hc
      exact ⟨lt, rt, hext _ _ hrec, ih hl, ih hr⟩

theorem leafAt_ext {s s' : Store} (hext : extHK s s') (i : Int) :
    ∀ {n : Nat} {h : H}, complete s h n → leafAt s' i h n = leafAt s i h n := by
  intro n
  induction n with
  | zero => intro h _; rfl
  | succ n ih =>
      intro h hc
      obtain ⟨lt, rt, hrec, hl, hr⟩ := hc
      rw [leafAt, leafAt, hrec, hext _ _ hrec]
      by_cases hb : isLeftNode i (n + 1) <;> simp [hb, ih hl, ih hr]

theorem pairsLTR_ext {s s' : Store} (hext : extHK s s') (i : Int) :
    ∀ {n : Nat} {h : H}, complete s h n →
      pairsLTR s' i h n = pairsLTR s i h n := by
  intro n
  induction n with
  | zero => intro h _; rfl
  | succ n ih =>
      intro h hc
      obtain ⟨lt, rt, hrec, hl, hr⟩ := hc
      rw [pairsLTR, pairsLTR, hrec, hext _ _ hrec]
      by_cases hb : isLeftNode i (n + 1) <;> simp [hb, ih hl, ih hr]

theorem toTree_ext {s s' : Store} (hext : extHK s s') :
    ∀ {n : Nat} {h : H}, complete s h n → toTree s' h n = toTree s h n := by
  intro n
  induction n with
  | zero => intro h _; rfl
  | succ n ih =>
      intro h hc
      obtain ⟨lt, rt, hrec, hl, hr⟩ := hc
      rw [toTree, toTree, hrec, hext _ _ hrec]
      simp only [ih hl, ih hr]

theorem complete_of_spine {s : Store} {d : Nat}
    (hs : ∀ j, 1 ≤ j → j ≤ d →
      s (.hk (defN j)) = some (.node (defN (j - 1)) (defN (j - 1)))) :
    ∀ j, j ≤ d → complete s (defN j) j := by
  intro j
  induction j with
  | zero => intro _; exact ⟨zeros64, rfl⟩
  | succ j ih =>
      intro hj
      refine ⟨defN j, defN j, ?_, ih (by omega), ih (by omega)⟩
      have := hs (j + 1) (by omega) hj
      simpa using this

/-! ### The recursive update on complete, content-addressed states -/

theorem base_ne_store {s : Store} (hs : goodStore s) (v : List Nat) :
    s (.hk (hashB v)) = none := by
  cases hv : s (.hk (hashB v)) with
  | none => rfl
  | some r =>
      obtain ⟨lt, rt, _, hcomp⟩ := hs _ _ hv
      simp [hashB, compress] at hcomp

theorem updateRecAux_absent {s : Store} {parent : H}
    (hrec : s (.hk parent) = none) (rootArg : H) (i : Int) (v : List Nat)
    (fuel layer : Nat) :
    updateRecAux rootArg i v (fuel + 1) s parent layer = some (hashB v, s) := by
  rw [updateRecAux, hrec]
  rfl

theorem updateRecAux_node {s : Store} {parent lt rt : H}
    (hrec : s (.hk parent) = some (.node lt rt)) (rootArg : H) (i : Int)
    (v : List Nat) (fuel layer : Nat) :
    updateRecAux rootArg i v (fuel + 1) s parent layer =
      if isLeftNode i layer then
        match updateRecAux rootArg i v fuel s lt (layer - 1) with
        | none => none
        | some (ul, s') => some (compress ul rt,
            putRec s' (.hk (compress ul rt)) (.node ul rt))
      else
        match updateRecAux rootArg i v fuel s rt (layer - 1) with
        | none => none
        | some (ur, s') => some (compress lt ur,
            putRec s' (.hk (compress lt ur)) (.node lt ur)) := by
  rw [updateRecAux, hrec]
  rfl

theorem updateRecAux_blob {s : Store} {parent : H} {n : Nat}
    (hrec : s (.hk parent) = some (.blob n)) (hn : n ≠ 0) (rootArg : H)
    (i : Int) (v : List Nat) (fuel layer : Nat) :
    updateRecAux rootArg i v (fuel + 1) s parent layer = some (rootArg, s) := by
  rw [updateRecAux, hrec]
  simp [recSize, hn]

theorem updateRec_spec (i : Int) (v : List Nat) :
    ∀ (L : Nat) (s : Store) (rootArg parent : H), goodStore s →
      complete s parent L →
      ∃ h' s', updateRecAux rootArg i v (L + 1) s parent L = some (h', s') ∧
        goodStore s' ∧ extHK s s' ∧ complete s' h' L ∧
        leafAt s' i h' L = hashB v ∧
        toTree s' h' L = updT i v (toTree s parent L) L := by
  intro L
  induction L with
  | zero =>
      intro s rootArg parent hs hc
      obtain ⟨v', hv'⟩ := hc
      refine ⟨hashB v, s, ?_, hs, extHK_refl s, ⟨v, rfl⟩, rfl, ?_⟩
      · rw [hv']
        exact updateRecAux_absent (hv' ▸ base_ne_store hs v') rootArg i v 0 0
      · simp [toTree, updT]
  | succ L ih =>
      intro s rootArg parent hs hc
      obtain ⟨lt, rt, hrec, hl, hr⟩ := hc
      by_cases hb : isLeftNode i (L + 1)
      · obtain ⟨h₁, s₁, heq, hs₁, hext₁, hc₁, hleaf₁, htree₁⟩ :=
          ih s rootArg lt hs hl
        have hext₂ : extHK s₁ (putRec s₁ (.hk (compress h₁ rt)) (.node h₁ rt)) :=
          extHK_putNode hs₁ h₁ rt
        refine ⟨compress h₁ rt, putRec s₁ (.hk (compress h₁ rt)) (.node h₁ rt),
          ?_, goodStore_putNode hs₁ h₁ rt, extHK_trans hext₁ hext₂, ?_, ?_, ?_⟩
        · rw [updateRecAux_node hrec rootArg i v (L + 1) (L + 1)]
          simp only [hb, if_true, Nat.add_sub_cancel, heq]
        · exact ⟨h₁, rt, putRec_same _ _ _,
            complete_mono hext₂ hc₁,
            complete_mono (extHK_trans hext₁ hext₂) hr⟩
        · rw [leafAt, putRec_same]
          simp only [hb, if_true]
          rw [leafAt_ext hext₂ i hc₁, hleaf₁]
        · rw [toTree, putRec_same]
          simp only
          rw [toTree_ext hext₂ hc₁, htree₁,
            toTree_ext (extHK_trans hext₁ hext₂) hr]
          rw [toTree, hrec]
          simp only [updT, hb, if_true]
      · obtain ⟨h₁, s₁, heq, hs₁, hext₁, hc₁, hleaf₁, htree₁⟩ :=
          ih s rootArg rt hs hr
        have hext₂ : extHK s₁ (putRec s₁ (.hk (compress lt h₁)) (.node lt h₁)) :=
          extHK_putNode hs₁ lt h₁
        refine ⟨compress lt h₁, putRec s₁ (.hk (compress lt h₁)) (.node lt h₁),
          ?_, goodStore_putNode hs₁ lt h₁, extHK_trans hext₁ hext₂, ?_, ?_, ?_⟩
        · rw [updateRecAux_node hrec rootArg i v (L + 1) (L + 1), if_neg hb]
          simp only [Nat.add_sub_cancel, heq]
        · exact ⟨lt, h₁, putRec_same _ _ _,
            complete_mono (extHK_trans hext₁ hext₂) hl,
            complete_mono hext₂ hc₁⟩
        · rw [leafAt, putRec_same]
          simp only [if_neg hb]
          rw [leafAt_ext hext₂ i hc₁, hleaf₁]
        · rw [toTree, putRec_same]
          simp only
          rw [toTree_ext hext₂ hc₁, htree₁,
            toTree_ext (extHK_trans hext₁ hext₂) hl]
          rw [toTree, hrec]
          simp only [updT, if_neg hb]

/-! ### Tree-level invariant and reachability -/

/-- Health invariant of a tree state: the store is content-addressed, the
subtree hanging at the root is fully materialized down to bare leaf hashes,
and the depth is in the constructor's accepted range. -/
def Inv (t : Tree) : Prop :=
  goodStore t.store ∧ complete t.store t.root t.depth ∧
    1 ≤ t.depth ∧ t.depth ≤ 32

theorem inv_newTree_fresh {s : Store} {name : String} {d : Nat} {t : Tree}
    (hgood : goodStore s) (h0 : s (.nk name) = none) (h1 : 1 ≤ d)
    (h2 : d ≤ 32) (hnew : newTree s name d = some t) :
    Inv t ∧ t.depth = d ∧ t.name = name ∧ t.root = defN d := by
  rw [newTree_fresh h0 h1 h2] at hnew
  obtain rfl := Option.some.inj hnew
  have hchar := buildDefaults_store d s 0
  have hgood' : goodStore (buildDefaults s (defN 0) d).2 := by
    have := goodStore_buildDefaults d s (hashB zeros64) hgood
    simpa [defN] using this
  have hcompl : complete (buildDefaults s (defN 0) d).2 (defN d) d :=
    complete_of_spine (fun j hj1 hj2 => hchar.1 j hj1 (by omega)) d le_rfl
  have hext := extHK_putMeta (buildDefaults s (defN 0) d).2 name
    (.meta (defN d) (metaBytes d))
  refine ⟨⟨?_, ?_, h1, h2⟩, rfl, rfl, rfl⟩
  · show goodStore (putRec (buildDefaults s (hashB zeros64) d).2 _ _)
    have : (buildDefaults s (hashB zeros64) d) = (buildDefaults s (defN 0) d) := rfl
    rw [this]
    exact goodStore_putMeta hgood' name _
  · show complete (putRec (buildDefaults s (hashB zeros64) d).2 _ _) (defN d) d
    have : (buildDefaults s (hashB zeros64) d) = (buildDefaults s (defN 0) d) := rfl
    rw [this]
    exact complete_mono hext hcompl

theorem updateElement_spec {t : Tree} (hinv : Inv t) (i : Int) (v : List Nat) :
    ∃ t', updateElement t i v = some t' ∧ Inv t' ∧ t'.depth = t.depth ∧
      t'.name = t.name ∧ extHK t.store t'.store ∧
      complete t'.store t'.root t.depth ∧
      leafAt t'.store i t'.root t.depth = hashB v ∧
      toTree t'.store t'.root t.depth =
        updT i v (toTree t.store t.root t.depth) t.depth := by
  obtain ⟨hgood, hcompl, hd1, hd2⟩ := hinv
  obtain ⟨h', s', heq, hgood', hext', hcompl', hleaf', htree'⟩ :=
    updateRec_spec i v t.depth t.store t.root t.root hgood hcompl
  have hm : extHK s' (putRec s' (.nk t.name) (.meta h' (metaBytes t.depth))) :=
    extHK_putMeta s' t.name _
  refine ⟨writeMetaData { t with root := h', store := s' }, ?_, ?_, rfl, rfl,
    ?_, ?_, ?_, ?_⟩
  · rw [updateElement, heq]
  · exact ⟨goodStore_putMeta hgood' t.name _, complete_mono hm hcompl', hd1, hd2⟩
  · exact extHK_trans hext' hm
  · exact complete_mono hm hcompl'
  · show leafAt (putRec s' (.nk t.name) (.meta h' (metaBytes t.depth))) i h'
      t.depth = hashB v
    rw [leafAt_ext hm i hcompl']
    exact hleaf'
  · show toTree (putRec s' (.nk t.name) (.meta h' (metaBytes t.depth))) h'
      t.depth = updT i v (toTree t.store t.root t.depth) t.depth
    rw [toTree_ext hm hcompl']
    exact htree'

theorem Reach_inv {t : Tree} (h : Reach t) : Inv t := by
  induction h with
  | init name d t hnew =>
      have hd : 1 ≤ d ∧ d ≤ 32 := by
        by_contra hc
        rw [newTree] at hnew
        simp only [emptyStore] at hnew
        rw [if_neg hc] at hnew
        exact Option.noConfusion hnew
      exact (inv_newTree_fresh goodStore_empty rfl hd.1 hd.2 hnew).1
  | step t i v t' _ _ _ hupd ih =>
      obtain ⟨t'', heq, hinv'', _⟩ := updateElement_spec ih i v
      rw [hupd] at heq
      obtain rfl := Option.some.inj heq
      exact hinv''

/-! ### Hash-path lemmas on complete states -/

theorem ghpLoop_acc (s : Store) (i : Int) :
    ∀ (n : Nat) (cur : H) (acc : List (H × H)),
      ghpLoop s i n cur acc = acc ++ ghpLoop s i n cur [] := by
  intro n
  induction n with
  | zero => intro cur acc; simp [ghpLoop]
  | succ n ih =>
      intro cur acc
      rw [ghpLoop, ghpLoop]
      cases hrec : s (.hk cur) with
      | none => exact ih cur acc
      | some r =>
          cases r with
          | node lt rt =>
              simp only
              rw [ih _ (acc ++ [(lt, rt)]), ih _ ([] ++ [(lt, rt)])]
              simp
          | meta a bs => exact ih cur acc
          | blob m => exact ih cur acc

theorem ghpLoop_eq_pairsLTR {s : Store} (hs : goodStore s) (i : Int) :
    ∀ {n : Nat} {h : H}, complete s h n →
      (ghpLoop s i n h []).reverse = pairsLTR s i h n := by
  intro n
  induction n with
  | zero => intro h _; rfl
  | succ n ih =>
      intro h hc
      obtain ⟨lt, rt, hrec, hl, hr⟩ := hc
      rw [ghpLoop, hrec]
      simp only
      rw [ghpLoop_acc, pairsLTR, hrec]
      by_cases hb : isLeftNode i (n + 1)
      · simp only [hb, if_true, List.nil_append, List.reverse_append,
          List.reverse_cons, List.reverse_nil, List.nil_append]
        rw [ih hl]
      · simp only [if_neg hb, List.nil_append]
        rw [List.reverse_append]
        simp only [List.reverse_cons, List.reverse_nil, List.nil_append]
        rw [ih hr]

theorem pairsLTR_length {s : Store} (i : Int) :
    ∀ {n : Nat} {h : H}, complete s h n → (pairsLTR s i h n).length = n := by
  intro n
  induction n with
  | zero => intro h _; rfl
  | succ n ih =>
      intro h hc
      obtain ⟨lt, rt, hrec, hl, hr⟩ := hc
      rw [pairsLTR, hrec]
      by_cases hb : isLeftNode i (n + 1)
      · simp only [hb, if_true, List.length_append, List.length_cons,
          List.length_nil, ih hl]
      · simp only [if_neg hb, List.length_append, List.length_cons,
          List.length_nil, ih hr]

theorem recomputeAux_append (i : Int) :
    ∀ (ps qs : List (H × H)) (layer : Nat) (cur : H),
      recomputeAux i layer cur (ps ++ qs) =
        recomputeAux i (layer + ps.length) (recomputeAux i layer cur ps) qs := by
  intro ps
  induction ps with
  | nil => intro qs layer cur; simp [recomputeAux]
  | cons p ps ih =>
      intro qs layer cur
      obtain ⟨lt, rt⟩ := p
      rw [List.cons_append, recomputeAux, recomputeAux, ih]
      congr 1
      simp only [List.length_cons]
      omega

theorem ghp_recompute {s : Store} (hs : goodStore s) (i : Int) :
    ∀ {n : Nat} {h : H}, complete s h n →
      recomputeRoot i (leafAt s i h n) (pairsLTR s i h n) = h := by
  intro n
  induction n with
  | zero => intro h _; rfl
  | succ n ih =>
      intro h hc
      obtain ⟨lt, rt, hrec, hl, hr⟩ := hc
      obtain ⟨lt', rt', hnode, hcomp⟩ := hs h _ hrec
      obtain ⟨rfl, rfl⟩ : lt' = lt ∧ rt' = rt := by
        obtain ⟨h1, h2⟩ := Rec.node.inj hnode
        exact ⟨h1.symm, h2.symm⟩
      rw [pairsLTR, leafAt, hrec]
      simp only
      by_cases hb : isLeftNode i (n + 1)
      · simp only [hb, if_true]
        rw [recomputeRoot, recomputeAux_append,
          pairsLTR_length i hl]
        have := ih hl
        rw [recomputeRoot] at this
        rw [this, recomputeAux, Nat.add_comm 1 n]
        simp only [hb, if_true, recomputeAux]
        exact hcomp.symm
      · simp only [if_neg hb]
        rw [recomputeRoot, recomputeAux_append,
          pairsLTR_length i hr]
        have := ih hr
        rw [recomputeRoot] at this
        rw [this, recomputeAux, Nat.add_comm 1 n]
        simp only [if_neg hb, recomputeAux]
        exact hcomp.symm

/-! ### Bit-selection arithmetic -/

theorem isLeftNode_toNat (n : Nat) (j : Nat) :
    isLeftNode (n : Int) (j + 1) = !(n.testBit j) := by
  rw [isLeftNode]
  have h2 : ((2 : Int) ^ j) = ((2 ^ j : Nat) : Int) := by push_cast; ring
  have hfd : Int.fdiv (n : Int) ((2 : Int) ^ j) = ((n / 2 ^ j : Nat) : Int) := by
    rw [h2, Int.fdiv_eq_ediv _ (by positivity), Int.ofNat_ediv]
  rw [hfd]
  rw [Nat.testBit_to_div_mod]
  rcases Nat.mod_two_eq_zero_or_one (n / 2 ^ j) with hm | hm
  · have hmi : ((n / 2 ^ j : Nat) : Int) % 2 = 0 := by omega
    simp only [hmi, hm]
    simp
  · have hmi : ((n / 2 ^ j : Nat) : Int) % 2 = 1 := by omega
    simp only [hmi, hm]
    simp

theorem bits_differ {i1 i2 : Int} {d : Nat} (h10 : 0 ≤ i1) (h11 : i1 < 2 ^ d)
    (h20 : 0 ≤ i2) (h21 : i2 < 2 ^ d) (hne : i1 ≠ i2) :
    ∃ L, 1 ≤ L ∧ L ≤ d ∧ isLeftNode i1 L ≠ isLeftNode i2 L := by
  by_contra hall
  push_neg at hall
  apply hne
  obtain ⟨n1, rfl⟩ := Int.eq_ofNat_of_zero_le h10
  obtain ⟨n2, rfl⟩ := Int.eq_ofNat_of_zero_le h20
  have hn1 : n1 < 2 ^ d := by exact_mod_cast h11
  have hn2 : n2 < 2 ^ d := by exact_mod_cast h21
  have : n1 = n2 := by
    apply Nat.eq_of_testBit_eq
    intro j
    by_cases hj : j < d
    · have := hall (j + 1) (by omega) (by omega)
      rw [isLeftNode_toNat, isLeftNode_toNat] at this
      simpa using this
    · rw [Nat.testBit_eq_false_of_lt (lt_of_lt_of_le hn1 (Nat.pow_le_pow_right
        (by omega) (by omega))),
        Nat.testBit_eq_false_of_lt (lt_of_lt_of_le hn2 (Nat.pow_le_pow_right
        (by omega) (by omega)))]
  exact_mod_cast this

theorem isLeftNode_add_pow {d L : Nat} (i : Int) (hL : L ≤ d) :
    isLeftNode (i + 2 ^ d) L = isLeftNode i L := by
  match L with
  | 0 => rfl
  | l + 1 =>
      rw [isLeftNode, isLeftNode]
      have hsplit : (2 : Int) ^ d = 2 ^ l * (2 * 2 ^ (d - l - 1)) := by
        rw [← pow_succ']
        rw [← pow_add]
        congr 1
        omega
      have hfd : ∀ a : Int, Int.fdiv a ((2 : Int) ^ l) = a / 2 ^ l := fun a =>
        Int.fdiv_eq_ediv a (by positivity)
      rw [hfd, hfd, hsplit,
        Int.add_mul_ediv_left i (2 * 2 ^ (d - l - 1)) (by positivity)]
      have h2 : (2 : Int) * 2 ^ (d - l - 1) = 2 * 2 ^ (d - l - 1) := rfl
      rw [Int.add_mul_emod_self_left]

/-! ### Abstract tree lemmas -/

theorem Full_toTree {s : Store} :
    ∀ {n : Nat} {h : H}, complete s h n → Full (toTree s h n) n := by
  intro n
  induction n with
  | zero => intro h _; trivial
  | succ n ih =>
      intro h hc
      obtain ⟨lt, rt, hrec, hl, hr⟩ := hc
      rw [toTree, hrec]
      exact ⟨ih hl, ih hr⟩

theorem rootOf_toTree {s : Store} (hs : goodStore s) :
    ∀ {n : Nat} {h : H}, complete s h n → rootOf (toTree s h n) = h := by
  intro n
  induction n with
  | zero => intro h _; rfl
  | succ n ih =>
      intro h hc
      obtain ⟨lt, rt, hrec, hl, hr⟩ := hc
      obtain ⟨lt', rt', hnode, hcomp⟩ := hs h _ hrec
      obtain ⟨e1, e2⟩ := Rec.node.inj hnode
      rw [toTree, hrec]
      show compress (rootOf (toTree s lt n)) (rootOf (toTree s rt n)) = h
      rw [ih hl, ih hr, hcomp, e1, e2]

theorem Full_updT (i : Int) (v : List Nat) :
    ∀ {n : Nat} {T : Htree}, Full T n → Full (updT i v T n) n := by
  intro n
  induction n with
  | zero => intro T _; cases T <;> simp [updT, Full]
  | succ n ih =>
      intro T hT
      cases T with
      | lf h => exact absurd hT (by simp [Full])
      | nd l r =>
          obtain ⟨hl, hr⟩ := hT
          rw [updT]
          by_cases hb : isLeftNode i (n + 1)
          · simp only [hb, if_true]
            exact ⟨ih hl, hr⟩
          · simp only [if_neg hb]
            exact ⟨hl, ih hr⟩

theorem updT_comm (v1 v2 : List Nat) :
    ∀ (d : Nat) (T : Htree) (i1 i2 : Int), Full T d →
      (∃ L, 1 ≤ L ∧ L ≤ d ∧ isLeftNode i1 L ≠ isLeftNode i2 L) →
      updT i2 v2 (updT i1 v1 T d) d = updT i1 v1 (updT i2 v2 T d) d := by
  intro d
  induction d with
  | zero =>
      intro T i1 i2 _ hdiff
      obtain ⟨L, hL1, hL2, _⟩ := hdiff
      omega
  | succ d ih =>
      intro T i1 i2 hT hdiff
      cases T with
      | lf h => exact absurd hT (by simp [Full])
      | nd l r =>
          obtain ⟨hl, hr⟩ := hT
          by_cases hb1 : isLeftNode i1 (d + 1) <;>
            by_cases hb2 : isLeftNode i2 (d + 1)
          · have hdiff' : ∃ L, 1 ≤ L ∧ L ≤ d ∧
                isLeftNode i1 L ≠ isLeftNode i2 L := by
              obtain ⟨L, hL1, hL2, hLne⟩ := hdiff
              rcases Nat.lt_or_ge L (d + 1) with hL | hL
              · exact ⟨L, hL1, by omega, hLne⟩
              · have : L = d + 1 := by omega
                subst this
                exact absurd (hb1.trans hb2.symm) hLne
            simp only [updT, hb1, hb2, if_true]
            rw [ih l i1 i2 hl hdiff']
          · simp only [updT, hb1, if_true, if_neg hb2]
          · simp only [updT, if_neg hb1, hb2, if_true]
          · have hdiff' : ∃ L, 1 ≤ L ∧ L ≤ d ∧
                isLeftNode i1 L ≠ isLeftNode i2 L := by
              obtain ⟨L, hL1, hL2, hLne⟩ := hdiff
              rcases Nat.lt_or_ge L (d + 1) with hL | hL
              · exact ⟨L, hL1, by omega, hLne⟩
              · have : L = d + 1 := by omega
                subst this
                rw [Bool.not_eq_true] at hb1 hb2
                exact absurd (hb1.trans hb2.symm) hLne
            simp only [updT, if_neg hb1, if_neg hb2]
            rw [ih r i1 i2 hr hdiff']

/-! ### Strict-update agreement, unconditional invariant preservation,
index congruence, metadata encoding -/

theorem updateRecStrict_node {s : Store} {parent lt rt : H}
    (hrec : s (.hk parent) = some (.node lt rt)) (rootArg : H) (i : Int)
    (v : List Nat) (fuel layer : Nat) :
    updateRecStrict rootArg i v (fuel + 1) s parent layer =
      if isLeftNode i layer then
        match updateRecStrict rootArg i v fuel s lt (layer - 1) with
        | none => none
        | some (ul, s') => some (compress ul rt,
            putRec s' (.hk (compress ul rt)) (.node ul rt))
      else
        match updateRecStrict rootArg i v fuel s rt (layer - 1) with
        | none => none
        | some (ur, s') => some (compress lt ur,
            putRec s' (.hk (compress lt ur)) (.node lt ur)) := by
  rw [updateRecStrict, hrec]
  rfl

theorem updateRecStrict_eq (i : Int) (v : List Nat) :
    ∀ (L : Nat) (s : Store) (rootArg parent : H), goodStore s →
      complete s parent L →
      updateRecStrict rootArg i v (L + 1) s parent L =
        updateRecAux rootArg i v (L + 1) s parent L := by
  intro L
  induction L with
  | zero =>
      intro s rootArg parent hs hc
      obtain ⟨v', hv'⟩ := hc
      subst hv'
      have habs := base_ne_store hs v'
      rw [updateRecStrict, habs, updateRecAux_absent habs rootArg i v 0 0]
      rfl
  | succ L ih =>
      intro s rootArg parent hs hc
      obtain ⟨lt, rt, hrec, hl, hr⟩ := hc
      rw [updateRecStrict_node hrec rootArg i v (L + 1) (L + 1),
        updateRecAux_node hrec rootArg i v (L + 1) (L + 1)]
      by_cases hb : isLeftNode i (L + 1)
      · simp only [hb, if_true, Nat.add_sub_cancel, ih s rootArg lt hs hl]
      · simp only [if_neg hb, Nat.add_sub_cancel, ih s rootArg rt hs hr]

theorem updateRec_good (i : Int) (v : List Nat) :
    ∀ (fuel : Nat) (s : Store) (rootArg parent : H) (layer : Nat) (h' : H)
      (s' : Store), goodStore s →
      updateRecAux rootArg i v fuel s parent layer = some (h', s') →
      goodStore s' := by
  intro fuel
  induction fuel with
  | zero =>
      intro s rootArg parent layer h' s' _ heq
      exact Option.noConfusion heq
  | succ fuel ih =>
      intro s rootArg parent layer h' s' hs heq
      cases hrec : s (.hk parent) with
      | none =>
          rw [updateRecAux_absent hrec rootArg i v fuel layer] at heq
          obtain ⟨_, rfl⟩ := Prod.mk.injEq .. ▸ Option.some.inj heq
          exact hs
      | some r =>
          obtain ⟨lt, rt, rfl, _⟩ := hs parent r hrec
          rw [updateRecAux_node hrec rootArg i v fuel layer] at heq
          by_cases hb : isLeftNode i layer
          · rw [if_pos hb] at heq
            cases hin : updateRecAux rootArg i v fuel s lt (layer - 1) with
            | none => rw [hin] at heq; exact Option.noConfusion heq
            | some p =>
                obtain ⟨ul, s₁⟩ := p
                rw [hin] at heq
                simp only at heq
                obtain ⟨_, hs'⟩ := Prod.mk.injEq .. ▸ Option.some.inj heq
                rw [← hs']
                exact goodStore_putNode (ih s rootArg lt (layer - 1) ul s₁ hs hin)
                  ul rt
          · rw [if_neg hb] at heq
            cases hin : updateRecAux rootArg i v fuel s rt (layer - 1) with
            | none => rw [hin] at heq; exact Option.noConfusion heq
            | some p =>
                obtain ⟨ur, s₁⟩ := p
                rw [hin] at heq
                simp only at heq
                obtain ⟨_, hs'⟩ := Prod.mk.injEq .. ▸ Option.some.inj heq
                rw [← hs']
                exact goodStore_putNode (ih s rootArg rt (layer - 1) ur s₁ hs hin)
                  lt ur

theorem updateRecAux_congr {i1 i2 : Int} {bound : Nat}
    (hbits : ∀ L, L ≤ bound → isLeftNode i1 L = isLeftNode i2 L)
    (v : List Nat) :
    ∀ (fuel : Nat) (s : Store) (rootArg parent : H) (layer : Nat),
      layer ≤ bound →
      updateRecAux rootArg i1 v fuel s parent layer =
        updateRecAux rootArg i2 v fuel s parent layer := by
  intro fuel
  induction fuel with
  | zero => intro s rootArg parent layer _; rfl
  | succ fuel ih =>
      intro s rootArg parent layer hlayer
      cases hrec : s (.hk parent) with
      | none =>
          rw [updateRecAux_absent hrec rootArg i1 v fuel layer,
            updateRecAux_absent hrec rootArg i2 v fuel layer]
      | some r =>
          cases r with
          | node lt rt =>
              rw [updateRecAux_node hrec rootArg i1 v fuel layer,
                updateRecAux_node hrec rootArg i2 v fuel layer,
                hbits layer hlayer,
                ih s rootArg lt (layer - 1) (by omega),
                ih s rootArg rt (layer - 1) (by omega)]
          | meta a bs =>
              rw [updateRecAux, updateRecAux, hrec]
          | blob m =>
              rw [updateRecAux, updateRecAux, hrec]

theorem ghpLoop_congr {i1 i2 : Int} (s : Store) :
    ∀ (n : Nat) (cur : H) (acc : List (H × H)),
      (∀ L, L ≤ n → isLeftNode i1 L = isLeftNode i2 L) →
      ghpLoop s i1 n cur acc = ghpLoop s i2 n cur acc := by
  intro n
  induction n with
  | zero => intro cur acc _; rfl
  | succ n ih =>
      intro cur acc hbits
      rw [ghpLoop, ghpLoop]
      cases hrec : s (.hk cur) with
      | none => exact ih cur acc (fun L hL => hbits L (by omega))
      | some r =>
          cases r with
          | node lt rt =>
              simp only
              rw [hbits (n + 1) le_rfl, ih _ _ (fun L hL => hbits L (by omega))]
          | meta a bs => exact ih cur acc (fun L hL => hbits L (by omega))
          | blob m => exact ih cur acc (fun L hL => hbits L (by omega))

theorem readU32LE_metaBytes {n : Nat} (h : n < 2 ^ 32) :
    readU32LE (metaBytes n) = n := by
  rw [metaBytes, u32LE]
  show readU32LE (_ :: _ :: _ :: _ :: _) = n
  rw [readU32LE]
  omega

/-! ### Concrete sample states for the witnesses -/

/-- A 64-byte all-ones leaf value. -/
def sampleV : List Nat := List.replicate 64 1

/-- A second 64-byte leaf value. -/
def sampleV2 : List Nat := List.replicate 64 2

/-- A depth-2 tree freshly initialized over an empty store. -/
def sampleTree : Tree :=
  (newTree emptyStore "t" 2).getD ⟨emptyStore, "t", 2, H.zero32⟩

theorem sampleTree_def : newTree emptyStore "t" 2 = some sampleTree := rfl

theorem sampleTree_reach : Reach sampleTree :=
  Reach.init "t" 2 sampleTree sampleTree_def

/-- `sampleTree` after `updateElement(0, sampleV)`. -/
def sampleTree1 : Tree := (updateElement sampleTree 0 sampleV).getD sampleTree

theorem sampleTree1_def : updateElement sampleTree 0 sampleV = some sampleTree1 :=
  rfl

/-! ### Claim theorems -/

/-- C1: for every valid index `i` and 64-byte value `v`, after
`updateElement(i, v)` succeeds, recomputing the root starting from `hash(v)`
and compressing upward with the sibling pairs of `getHashPath(i)` — choosing
the composition order at each level by the corresponding bit of `i` — yields
exactly `getRoot()`. -/
theorem c1_update_then_prove (t : Tree) (i : Int) (v : List Nat)
    (hR : Reach t) (h0 : 0 ≤ i) (h1 : i < 2 ^ t.depth) (hv : v.length = 64) :
    ∃ t', updateElement t i v = some t' ∧
      recomputeRoot i (hashB v) (getHashPath t' i) = getRoot t' := by
  obtain ⟨t', heq, hinv', hdep, hname, hext, hcompl', hleaf', htree'⟩ :=
    updateElement_spec (Reach_inv hR) i v
  refine ⟨t', heq, ?_⟩
  have hgood' := hinv'.1
  rw [getHashPath, getRoot, hdep,
    ghpLoop_eq_pairsLTR hgood' i hcompl', ← hleaf']
  exact ghp_recompute hgood' i hcompl'

theorem c1_witness :
    Reach sampleTree ∧ (0 : Int) ≤ 0 ∧ (0 : Int) < 2 ^ sampleTree.depth ∧
    sampleV.length = 64 ∧
    ∃ t', updateElement sampleTree 0 sampleV = some t' ∧
      recomputeRoot 0 (hashB sampleV) (getHashPath t' 0) = getRoot t' :=
  ⟨sampleTree_reach, le_refl 0, by decide, by decide,
    c1_update_then_prove sampleTree 0 sampleV sampleTree_reach (le_refl 0)
      (by decide) (by decide)⟩

/-- C5: for every depth in `[1, 32]`, opening against a store with no
metadata for the name yields a tree whose `getRoot()` is the result of
compressing `hash(64 zero bytes)` with itself `depth` times (`defN depth`),
and initialization writes exactly one default internal record per level
(key = the node's own hash `defN j`, value = its two equal children
`defN (j-1) || defN (j-1)`) plus the metadata record, leaving every other
key untouched. -/
theorem c5_empty_tree_init (s : Store) (name : String) (d : Nat)
    (h0 : s (.nk name) = none) (h1 : 1 ≤ d) (h2 : d ≤ 32) :
    ∃ t, newTree s name d = some t ∧ getRoot t = defN d ∧ t.depth = d ∧
      (∀ j, 1 ≤ j → j ≤ d → t.store (.hk (defN j)) =
        some (.node (defN (j - 1)) (defN (j - 1)))) ∧
      (∀ h, (∀ j, 1 ≤ j → j ≤ d → h ≠ defN j) →
        t.store (.hk h) = s (.hk h)) ∧
      t.store (.nk name) = some (.meta (defN d) (metaBytes d)) := by
  rw [newTree_fresh h0 h1 h2]
  have hchar := buildDefaults_store d s 0
  refine ⟨_, rfl, rfl, rfl, ?_, ?_, putRec_same _ _ _⟩
  · intro j hj1 hj2
    show putRec (buildDefaults s (hashB zeros64) d).2 (.nk name)
      (.meta (defN d) (metaBytes d)) (.hk (defN j)) = _
    rw [putRec_other _ _ _ _ (by simp)]
    exact hchar.1 j hj1 (by omega)
  · intro h hne
    show putRec (buildDefaults s (hashB zeros64) d).2 (.nk name)
      (.meta (defN d) (metaBytes d)) (.hk h) = s (.hk h)
    rw [putRec_other _ _ _ _ (by simp)]
    exact hchar.2 (.hk h) (fun j hj1 hj2 hcontra =>
      hne j (by omega) (by omega) (K.hk.inj hcontra))

theorem c5_witness :
    emptyStore (.nk "w") = none ∧ 1 ≤ 2 ∧ 2 ≤ 32 ∧
    (∃ t, newTree emptyStore "w" 2 = some t ∧ getRoot t = defN 2 ∧
      t.depth = 2 ∧
      (∀ j, 1 ≤ j → j ≤ 2 → t.store (.hk (defN j)) =
        some (.node (defN (j - 1)) (defN (j - 1)))) ∧
      (∀ h, (∀ j, 1 ≤ j → j ≤ 2 → h ≠ defN j) →
        t.store (.hk h) = emptyStore (.hk h)) ∧
      t.store (.nk "w") = some (.meta (defN 2) (metaBytes 2))) :=
  ⟨rfl, by decide, by decide,
    c5_empty_tree_init emptyStore "w" 2 rfl (by decide) (by decide)⟩

/-- C6 counterexample: the metadata record written for `sampleTree` is 40
bytes, which is not `hash_size + 4 = 36` — `Buffer.alloc(40)` leaves four
zero padding bytes after the depth field, so "exactly hash_size + 4 = 40
bytes" is false on the code (40 ≠ 32 + 4). -/
theorem c6_counterexample :
    recSize ((writeMetaData sampleTree).store (.nk sampleTree.name)) = 40 ∧
    recSize ((writeMetaData sampleTree).store (.nk sampleTree.name)) ≠
      32 + 4 := by
  constructor
  · rfl
  · decide

/-- C6 (amended): the metadata record persisted under the tree's name is
exactly 40 bytes — the 32-byte root, then the depth as a fixed-width
little-endian u32, then four zero padding bytes from `Buffer.alloc(40)`
(not `hash_size + 4 = 36` bytes); re-opening a tree whose metadata exists
restores exactly the persisted root and the persisted depth (ignoring the
caller-supplied depth) and performs no recomputation and no writes: the
returned instance carries the store unchanged. -/
theorem c6_metadata_roundtrip (t : Tree) (d0 : Nat) (h1 : 1 ≤ t.depth)
    (h2 : t.depth ≤ 32) :
    (writeMetaData t).store (.nk t.name) =
      some (.meta t.root (u32LE t.depth ++ List.replicate 4 0)) ∧
    recSize ((writeMetaData t).store (.nk t.name)) = 40 ∧
    newTree (writeMetaData t).store t.name d0 =
      some ⟨(writeMetaData t).store, t.name, t.depth, t.root⟩ := by
  have hput : (writeMetaData t).store (.nk t.name) =
      some (.meta t.root (metaBytes t.depth)) := putRec_same _ _ _
  refine ⟨hput, ?_, ?_⟩
  · rw [hput]
    show 32 + (u32LE t.depth ++ List.replicate 4 0).length = 40
    rw [List.length_append, List.length_replicate]
    rfl
  · rw [newTree, hput]
    simp only
    rw [readU32LE_metaBytes (by omega)]
    rw [if_pos ⟨h1, h2⟩]

theorem c6_witness :
    1 ≤ sampleTree.depth ∧ sampleTree.depth ≤ 32 ∧
    ((writeMetaData sampleTree).store (.nk sampleTree.name) =
      some (.meta sampleTree.root (u32LE sampleTree.depth ++
        List.replicate 4 0)) ∧
    recSize ((writeMetaData sampleTree).store (.nk sampleTree.name)) = 40 ∧
    newTree (writeMetaData sampleTree).store sampleTree.name 7 =
      some ⟨(writeMetaData sampleTree).store, sampleTree.name,
        sampleTree.depth, sampleTree.root⟩) :=
  ⟨by decide, by decide,
    c6_metadata_roundtrip sampleTree 7 (by decide) (by decide)⟩

/-- C7: two updates at distinct in-range indices commute on the final root:
`update(i1,v1); update(i2,v2)` yields the same final root as
`update(i2,v2); update(i1,v1)`. -/
theorem c7_update_commutes (t : Tree) (i1 i2 : Int) (v1 v2 : List Nat)
    (hR : Reach t) (h10 : 0 ≤ i1) (h11 : i1 < 2 ^ t.depth) (h20 : 0 ≤ i2)
    (h21 : i2 < 2 ^ t.depth) (hne : i1 ≠ i2) :
    ∃ ta tb tc td,
      updateElement t i1 v1 = some ta ∧ updateElement ta i2 v2 = some tb ∧
      updateElement t i2 v2 = some tc ∧ updateElement tc i1 v1 = some td ∧
      getRoot tb = getRoot td := by
  have hinv := Reach_inv hR
  obtain ⟨ta, heqa, hinva, hdepa, _, _, hcompla, _, htreea⟩ :=
    updateElement_spec hinv i1 v1
  obtain ⟨tb, heqb, hinvb, hdepb, _, _, hcomplb, _, htreeb⟩ :=
    updateElement_spec hinva i2 v2
  obtain ⟨tc, heqc, hinvc, hdepc, _, _, hcomplc, _, htreec⟩ :=
    updateElement_spec hinv i2 v2
  obtain ⟨td, heqd, hinvd, hdepd, _, _, hcompld, _, htreed⟩ :=
    updateElement_spec hinvc i1 v1
  refine ⟨ta, tb, tc, td, heqa, heqb, heqc, heqd, ?_⟩
  rw [hdepa] at hcomplb htreeb
  rw [hdepc] at hcompld htreed
  have hTb : toTree tb.store tb.root t.depth =
      updT i2 v2 (updT i1 v1 (toTree t.store t.root t.depth) t.depth)
        t.depth := by rw [htreeb, htreea]
  have hTd : toTree td.store td.root t.depth =
      updT i1 v1 (updT i2 v2 (toTree t.store t.root t.depth) t.depth)
        t.depth := by rw [htreed, htreec]
  have hcomm := updT_comm v1 v2 t.depth (toTree t.store t.root t.depth) i1 i2
    (Full_toTree hinv.2.1) (bits_differ h10 h11 h20 h21 hne)
  show tb.root = td.root
  rw [← rootOf_toTree hinvb.1 hcomplb, ← rootOf_toTree hinvd.1 hcompld,
    hTb, hTd, hcomm]

theorem c7_witness :
    Reach sampleTree ∧ (0 : Int) ≤ 0 ∧ (0 : Int) < 2 ^ sampleTree.depth ∧
    (0 : Int) ≤ 3 ∧ (3 : Int) < 2 ^ sampleTree.depth ∧ (0 : Int) ≠ 3 ∧
    ∃ ta tb tc td,
      updateElement sampleTree 0 sampleV = some ta ∧
      updateElement ta 3 sampleV2 = some tb ∧
      updateElement sampleTree 3 sampleV2 = some tc ∧
      updateElement tc 0 sampleV = some td ∧
      getRoot tb = getRoot td :=
  ⟨sampleTree_reach, le_refl 0, by decide, by decide, by decide, by decide,
    c7_update_commutes sampleTree 0 3 sampleV sampleV2 sampleTree_reach
      (le_refl 0) (by decide) (by decide) (by decide) (by decide)⟩

/-- C8: on every reachable tree the hash path is ordered leaf-to-root: the
pairs collected root-to-leaf by the downward walk are returned reversed,
position `j` of the result is the child pair of the path node at layer
`j + 1` (`pairsLTR`), so index 0 is the pair nearest the leaf and the last
entry is the pair stored directly below the root. -/
theorem c8_hash_path_order (t : Tree) (i : Int) (hR : Reach t) :
    getHashPath t i = (ghpLoop t.store i t.depth t.root []).reverse ∧
    getHashPath t i = pairsLTR t.store i t.root t.depth ∧
    (getHashPath t i).length = t.depth ∧
    ∃ lt rt, t.store (.hk t.root) = some (.node lt rt) ∧
      (getHashPath t i).getLast? = some (lt, rt) := by
  obtain ⟨hgood, hcompl, hd1, _⟩ := Reach_inv hR
  have hpairs : getHashPath t i = pairsLTR t.store i t.root t.depth :=
    ghpLoop_eq_pairsLTR hgood i hcompl
  refine ⟨rfl, hpairs, ?_, ?_⟩
  · rw [hpairs]
    exact pairsLTR_length i hcompl
  · obtain ⟨m, hm⟩ : ∃ m, t.depth = m + 1 := ⟨t.depth - 1, by omega⟩
    rw [hm] at hcompl
    obtain ⟨lt, rt, hrec, hl, hr⟩ := hcompl
    refine ⟨lt, rt, hrec, ?_⟩
    rw [hpairs, hm, pairsLTR, hrec]
    by_cases hb : isLeftNode i (m + 1)
    · simp only [hb, if_true]
      exact List.getLast?_concat _
    · simp only [if_neg hb]
      exact List.getLast?_concat _

theorem c8_witness :
    Reach sampleTree ∧
    (getHashPath sampleTree 2 = (ghpLoop sampleTree.store 2 sampleTree.depth
      sampleTree.root []).reverse ∧
    getHashPath sampleTree 2 = pairsLTR sampleTree.store 2 sampleTree.root
      sampleTree.depth ∧
    (getHashPath sampleTree 2).length = sampleTree.depth ∧
    ∃ lt rt, sampleTree.store (.hk sampleTree.root) = some (.node lt rt) ∧
      (getHashPath sampleTree 2).getLast? = some (lt, rt)) :=
  ⟨sampleTree_reach, c8_hash_path_order sampleTree 2 sampleTree_reach⟩

/-- A store holding only the metadata of a depth-2 tree (root `defN 2`),
with all node records missing — the restored-tree state in which every walk
lookup misses. -/
def metaOnlyStore : Store :=
  putRec emptyStore (.nk "m") (.meta (defN 2) (metaBytes 2))

/-- C2 (code bug evidence): restoring a depth-2 tree from `metaOnlyStore`
succeeds (depth 2 is read back from the metadata, ignoring the caller's 5),
but `getHashPath(0)` returns 0 pairs instead of `depth = 2`: when a lookup
finds no record the level is skipped (nothing is pushed), not filled with
the precomputed default-node values. -/
theorem c2_missing_record_omits_levels :
    (newTree metaOnlyStore "m" 5).map (fun t => (getHashPath t 0).length) =
      some 0 ∧
    (newTree metaOnlyStore "m" 5).map Tree.depth = some 2 := by
  constructor
  · rfl
  · rfl

/-- A depth-1 tree whose root record has a corrupt size (32 bytes, neither
absent nor the 64 bytes of an internal record). -/
def corruptTree : Tree :=
  ⟨putRec emptyStore (.hk (defN 1)) (.blob 32), "c", 1, defN 1⟩

/-- C3 (code bug evidence): on a corrupt record size,
`updateElementRecursively` falls through to `return this.root`, so
`updateElement` succeeds and returns the stale in-memory root instead of
failing: no `CorruptNode` error exists in this code path (the `part_000`
variant of the same function instead throws
`Error('Data Format is not support')`). -/
theorem c3_corrupt_returns_stale_root :
    (updateElement corruptTree 0 sampleV).isSome = true ∧
    (updateElement corruptTree 0 sampleV).map getRoot =
      some (getRoot corruptTree) := by
  constructor
  · rfl
  · rfl

/-- C4 counterexample: on the freshly initialized depth-2 `sampleTree`,
`updateElement(2^depth = 4, v)` does not fail — it succeeds and mutates the
root (it writes the leaf at position 0) — and `getHashPath(-1)` does not
fail either, returning a full 2-pair path.  So neither operation validates
its index. -/
theorem c4_counterexample :
    (updateElement sampleTree 4 sampleV).isSome = true ∧
    (updateElement sampleTree 4 sampleV).map getRoot ≠
      some (getRoot sampleTree) ∧
    (getHashPath sampleTree (-1)).length = 2 := by
  refine ⟨rfl, ?_, rfl⟩
  decide

/-- C4 (amended): neither operation validates its arguments; the index is
consulted only through its bits at layers `1..depth`, so both operations
are periodic in the index with period `2^depth` — an out-of-range index is
processed exactly like its low `depth` bits (and `updateElement` mutates
state accordingly); no value-size check exists anywhere on the path. -/
theorem c4_no_validation (t : Tree) (i : Int) (v : List Nat) :
    updateElement t (i + 2 ^ t.depth) v = updateElement t i v ∧
    getHashPath t (i + 2 ^ t.depth) = getHashPath t i := by
  have hbits : ∀ L, L ≤ t.depth →
      isLeftNode (i + 2 ^ t.depth) L = isLeftNode i L :=
    fun L hL => isLeftNode_add_pow i hL
  constructor
  · rw [updateElement, updateElement,
      updateRecAux_congr hbits v (t.depth + 1) t.store t.root t.root t.depth
        le_rfl]
  · rw [getHashPath, getHashPath,
      ghpLoop_congr t.store t.depth t.root [] hbits]

/-- C9: every internal node record ever written — by empty-tree
initialization and by every `updateElement` — sits at the key
`compress(left, right)` with value `left || right`; stated as: starting
from the empty store the initialized store is content-addressed
(`goodStore`), and `updateElement` preserves content-addressing of the
store from any content-addressed state. -/
theorem c9_content_addressed :
    (∀ (name : String) (d : Nat) (t : Tree),
      newTree emptyStore name d = some t → goodStore t.store) ∧
    (∀ (t : Tree) (i : Int) (v : List Nat) (t' : Tree), goodStore t.store →
      updateElement t i v = some t' → goodStore t'.store) := by
  constructor
  · intro name d t hnew
    have hd : 1 ≤ d ∧ d ≤ 32 := by
      by_contra hc
      rw [newTree] at hnew
      simp only [emptyStore] at hnew
      rw [if_neg hc] at hnew
      exact Option.noConfusion hnew
    exact ((inv_newTree_fresh goodStore_empty rfl hd.1 hd.2 hnew).1).1
  · intro t i v t' hgood hupd
    rw [updateElement] at hupd
    cases heq : updateRecAux t.root i v (t.depth + 1) t.store t.root
        t.depth with
    | none => rw [heq] at hupd; exact Option.noConfusion hupd
    | some p =>
        obtain ⟨h', s'⟩ := p
        rw [heq] at hupd
        simp only at hupd
        obtain rfl := Option.some.inj hupd
        show goodStore (putRec s' (.nk t.name) (.meta h' (metaBytes t.depth)))
        exact goodStore_putMeta
          (updateRec_good i v (t.depth + 1) t.store t.root t.root t.depth h'
            s' hgood heq) t.name _

theorem c9_witness :
    goodStore sampleTree.store ∧ goodStore sampleTree1.store :=
  ⟨c9_content_addressed.1 "t" 2 sampleTree sampleTree_def,
    c9_content_addressed.2 sampleTree 0 sampleV sampleTree1
      (c9_content_addressed.1 "t" 2 sampleTree sampleTree_def)
      sampleTree1_def⟩

/-- C10: on every tree created by empty-tree initialization and mutated
only through in-range `updateElement` calls, the recursive descent of
`updateElement` finds a 64-byte internal record at every layer above 0: the
instrumented descent that refuses to take the absent-record branch
(`return hash(value)`) at any layer above 0 agrees with the real one and
succeeds, so the leaf hash is never installed at a non-leaf level even
though the code does not check the layer in that branch. -/
theorem c10_absent_only_at_leaf (t : Tree) (i : Int) (v : List Nat)
    (hR : Reach t) (h0 : 0 ≤ i) (h1 : i < 2 ^ t.depth) :
    updateRecStrict t.root i v (t.depth + 1) t.store t.root t.depth =
      updateRecAux t.root i v (t.depth + 1) t.store t.root t.depth ∧
    (updateRecStrict t.root i v (t.depth + 1) t.store t.root
      t.depth).isSome = true := by
  obtain ⟨hgood, hcompl, _, _⟩ := Reach_inv hR
  have heqs := updateRecStrict_eq i v t.depth t.store t.root t.root hgood
    hcompl
  refine ⟨heqs, ?_⟩
  obtain ⟨h', s', heq', _⟩ :=
    updateRec_spec i v t.depth t.store t.root t.root hgood hcompl
  rw [heqs, heq']
  rfl

theorem c10_witness :
    Reach sampleTree ∧ (0 : Int) ≤ 1 ∧ (1 : Int) < 2 ^ sampleTree.depth ∧
    (updateRecStrict sampleTree.root 1 sampleV (sampleTree.depth + 1)
        sampleTree.store sampleTree.root sampleTree.depth =
      updateRecAux sampleTree.root 1 sampleV (sampleTree.depth + 1)
        sampleTree.store sampleTree.root sampleTree.depth ∧
    (updateRecStrict sampleTree.root 1 sampleV (sampleTree.depth + 1)
        sampleTree.store sampleTree.root sampleTree.depth).isSome = true) :=
  ⟨sampleTree_reach, by decide, by decide,
    c10_absent_only_at_leaf sampleTree 1 sampleV sampleTree_reach (by decide)
      (by decide)⟩

end MT
